import Mathlib

/-- JSON values as decoded by `JSON.parse`.  Numbers keep the raw lexeme. -/
inductive Json where
  | null : Json
  | bool (b : Bool) : Json
  | num (raw : List Char) : Json
  | str (s : List Char) : Json
  | arr (items : List Json) : Json
  | obj (fields : List (List Char × Json)) : Json
deriving Repr

/-- Whitespace skipped by the JSON grammar. -/
def skipWs : List Char → List Char
  | c :: rest =>
    if c = ' ' ∨ c = '\t' ∨ c = '\n' ∨ c = '\r' then skipWs rest else c :: rest
  | [] => []

/-- Parse the body of a JSON string after the opening quote; returns the
decoded characters and the input remaining after the closing quote. -/
def parseJString : List Char → Option (List Char × List Char)
  | [] => none
  | '"' :: rest => some ([], rest)
  | '\\' :: e :: rest =>
    let esc : Option Char :=
      if e = '"' then some '"'
      else if e = '\\' then some '\\'
      else if e = '/' then some '/'
      else if e = 'n' then some '\n'
      else if e = 't' then some '\t'
      else if e = 'r' then some '\r'
      else if e = 'b' then some (Char.ofNat 8)
      else if e = 'f' then some (Char.ofNat 12)
      else none
    match esc with
    | none => none
    | some ch =>
      match parseJString rest with
      | none => none
      | some (s, r) => some (ch :: s, r)
  | c :: rest =>
    match parseJString rest with
    | none => none
    | some (s, r) => some (c :: s, r)

/-- Split an input into its leading digit span and the rest. -/
def digitSpan (s : List Char) : List Char × List Char :=
  (s.takeWhile Char.isDigit, s.dropWhile Char.isDigit)

/-- Parse a JSON number, keeping the raw lexeme. -/
def parseNumber (s : List Char) : Option (List Char × List Char) :=
  let (neg, s1) :=
    match s with
    | '-' :: r => (['-'], r)
    | _ => (([] : List Char), s)
  match digitSpan s1 with
  | ([], _) => none
  | (ds, r1) =>
    let (frac, r2) :=
      match r1 with
      | '.' :: r =>
        match digitSpan r with
        | ([], _) => (([] : List Char), r1)
        | (fs, r') => ('.' :: fs, r')
      | _ => (([] : List Char), r1)
    let (ex, r3) :=
      match r2 with
      | e :: r =>
        if e = 'e' ∨ e = 'E' then
          let (sgn, rs) :=
            match r with
            | '+' :: rr => (['+'], rr)
            | '-' :: rr => (['-'], rr)
            | _ => (([] : List Char), r)
          match digitSpan rs with
          | ([], _) => (([] : List Char), r2)
          | (es, r') => (e :: (sgn ++ es), r')
        else (([] : List Char), r2)
      | _ => (([] : List Char), r2)
    some (neg ++ ds ++ frac ++ ex, r3)

/-- Modes of the recursive-descent JSON parser: a plain value, the member
list of an object, or the element list of an array.  A single fuelled
function keeps the recursion structural (on the fuel), so that concrete
runs reduce inside the kernel. -/
inductive PMode where
  | value : PMode
  | members (acc : List (List Char × Json)) : PMode
  | elems (acc : List Json) : PMode

/-- Fuelled recursive-descent JSON parser. -/
def parseJ : Nat → PMode → List Char → Option (Json × List Char)
  | 0, _, _ => none
  | Nat.succ fuel, PMode.value, s =>
    match skipWs s with
    | '"' :: rest =>
      match parseJString rest with
      | none => none
      | some (str, r) => some (Json.str str, r)
    | 'n' :: 'u' :: 'l' :: 'l' :: rest => some (Json.null, rest)
    | 't' :: 'r' :: 'u' :: 'e' :: rest => some (Json.bool true, rest)
    | 'f' :: 'a' :: 'l' :: 's' :: 'e' :: rest => some (Json.bool false, rest)
    | '\x7b' :: rest =>
      match skipWs rest with
      | '\x7d' :: r => some (Json.obj [], r)
      | r => parseJ fuel (PMode.members []) r
    | '[' :: rest =>
      match skipWs rest with
      | ']' :: r => some (Json.arr [], r)
      | r => parseJ fuel (PMode.elems []) r
    | other =>
      match parseNumber other with
      | none => none
      | some (raw, r) => some (Json.num raw, r)
  | Nat.succ fuel, PMode.members acc, s =>
    match skipWs s with
    | '"' :: rest =>
      match parseJString rest with
      | none => none
      | some (key, r1) =>
        match skipWs r1 with
        | ':' :: r2 =>
          match parseJ fuel PMode.value r2 with
          | none => none
          | some (v, r3) =>
            match skipWs r3 with
            | ',' :: r4 => parseJ fuel (PMode.members (acc ++ [(key, v)])) r4
            | '\x7d' :: r4 => some (Json.obj (acc ++ [(key, v)]), r4)
            | _ => none
        | _ => none
    | _ => none
  | Nat.succ fuel, PMode.elems acc, s =>
    match parseJ fuel PMode.value s with
    | none => none
    | some (v, r1) =>
      match skipWs r1 with
      | ',' :: r2 => parseJ fuel (PMode.elems (acc ++ [v])) r2
      | ']' :: r2 => some (Json.arr (acc ++ [v]), r2)
      | _ => none

/-- Model of `JSON.parse`: parse one value and require only trailing
whitespace after it. -/
def jsonParse (s : List Char) : Option Json :=
  match parseJ (s.length + 2) PMode.value s with
  | none => none
  | some (v, rest) =>
    match skipWs rest with
    | [] => some v
    | _ => none

/-- True when every mantissa digit of a JSON number lexeme is zero, which
is exactly when the denoted value is `0` (JSON has no NaN or infinities). -/
def numLexemeIsZero (raw : List Char) : Bool :=
  ((raw.takeWhile (fun c => !(c = 'e') && !(c = 'E'))).filter Char.isDigit).all
    (fun c => c = '0')

/-- JavaScript truthiness of a JSON value. -/
def jsonTruthy : Json → Bool
  | Json.null => false
  | Json.bool b => b
  | Json.num raw => !(numLexemeIsZero raw)
  | Json.str s => !(s = [])
  | Json.arr _ => true
  | Json.obj _ => true

/-- Escaping performed by `JSON.stringify` on string contents (modelled
subset: the named short escapes; rare other control characters would use
`\u00XX` in JavaScript and are passed through here). -/
def escapeJ : List Char → List Char
  | [] => []
  | c :: rest =>
    (if c = '"' then ['\\', '"']
     else if c = '\\' then ['\\', '\\']
     else if c = '\n' then ['\\', 'n']
     else if c = '\t' then ['\\', 't']
     else if c = '\r' then ['\\', 'r']
     else if c = Char.ofNat 8 then ['\\', 'b']
     else if c = Char.ofNat 12 then ['\\', 'f']
     else [c]) ++ escapeJ rest

/-- Two-space indentation prefix used by `JSON.stringify(·, null, 2)`. -/
def indentChars (n : Nat) : List Char := List.replicate n ' '

/-- Join rendered lines with a separator. -/
def joinWith (sep : List Char) : List (List Char) → List Char
  | [] => []
  | [x] => x
  | x :: y :: rest => x ++ sep ++ joinWith sep (y :: rest)

mutual

/-- Model of `JSON.stringify(v, null, 2)` at indentation level `ind`. -/
def jsonStringify (ind : Nat) : Json → List Char
  | Json.null => "null".toList
  | Json.bool b => if b then "true".toList else "false".toList
  | Json.num raw => raw
  | Json.str s => '"' :: (escapeJ s ++ ['"'])
  | Json.arr [] => "[]".toList
  | Json.arr (x :: xs) =>
    ('[' :: '\n' :: joinWith (",\n".toList) (stringifyItems (ind + 2) (x :: xs)))
      ++ '\n' :: (indentChars ind ++ [']'])
  | Json.obj [] => "\x7b\x7d".toList
  | Json.obj (f :: fs) =>
    ('\x7b' :: '\n' :: joinWith (",\n".toList) (stringifyFields (ind + 2) (f :: fs)))
      ++ '\n' :: (indentChars ind ++ ['\x7d'])

/-- Render array elements, one indented line each. -/
def stringifyItems (ind : Nat) : List Json → List (List Char)
  | [] => []
  | x :: xs => (indentChars ind ++ jsonStringify ind x) :: stringifyItems ind xs

/-- Render object members, one indented `"key": value` line each. -/
def stringifyFields (ind : Nat) : List (List Char × Json) → List (List Char)
  | [] => []
  | (k, v) :: fs =>
    (indentChars ind ++ ('"' :: (escapeJ k ++ ['"', ':', ' '])) ++ jsonStringify ind v)
      :: stringifyFields ind fs

end

/-- Last-occurrence-wins field lookup, matching JavaScript object
semantics for duplicate keys produced by `JSON.parse`. -/
def lookupField : List (List Char × Json) → List Char → Option Json
  | [], _ => none
  | (k', v) :: rest, k =>
    match lookupField rest k with
    | some w => some w
    | none => if k' = k then some v else none

/-- Model of JavaScript `String.prototype.split` with separator `"\n\n"`:
leftmost, non-overlapping cutting; always returns at least one part. -/
def splitBlank : List Char → List (List Char)
  | [] => [[]]
  | [c] => [[c]]
  | c1 :: c2 :: rest =>
    if c1 = '\n' ∧ c2 = '\n' then [] :: splitBlank rest
    else
      match splitBlank (c2 :: rest) with
      | [] => [[c1]]
      | m :: ms => (c1 :: m) :: ms

/-- All parts except the last (`messages` after `messages.pop()`). -/
def dropLastL : List (List Char) → List (List Char)
  | [] => []
  | [_] => []
  | x :: y :: xs => x :: dropLastL (y :: xs)

/-- The last part (`messages.pop() || ''`). -/
def lastD : List (List Char) → List Char
  | [] => []
  | [x] => x
  | _ :: y :: xs => lastD (y :: xs)

/-- JavaScript `trim()` on the whitespace subset relevant to the stream. -/
def isWsChar (c : Char) : Bool := c = ' ' || c = '\t' || c = '\n' || c = '\r'

/-- Model of `String.prototype.trim`. -/
def trimChars (s : List Char) : List Char :=
  ((s.dropWhile isWsChar).reverse.dropWhile isWsChar).reverse

/-- Does `pat` start the string `s`? (`String.prototype.startsWith`). -/
def startsWithChars : List Char → List Char → Bool
  | [], _ => true
  | _ :: _, [] => false
  | p :: ps, c :: cs => p = c && startsWithChars ps cs

/-- Model of `String.prototype.replace` with a string pattern: replace the
first occurrence of `pat` by the empty string. -/
def replaceFirst (pat : List Char) : List Char → List Char
  | [] => []
  | c :: rest =>
    if startsWithChars pat (c :: rest) then (c :: rest).drop pat.length
    else c :: replaceFirst pat rest

/-- The `"data: "` message prefix. -/
def dataPrefix : List Char := "data: ".toList

/-- Per-message processing of the stream loop: a message whose trimmed form
starts with `"data: "` has the first occurrence of the prefix removed, is
trimmed, and is parsed as JSON; empty payloads, non-`data:` messages and
JSON parse failures yield no event. -/
def processMessage (m : List Char) : Option Json :=
  if startsWithChars dataPrefix (trimChars m) then
    let jsonStr := trimChars (replaceFirst dataPrefix m)
    if jsonStr = [] then none else jsonParse jsonStr
  else none

/-- Concatenate the chunk list into the whole body. -/
def joinChunks : List (List Char) → List Char
  | [] => []
  | c :: cs => c ++ joinChunks cs

/-- The ordered events decoded from the complete messages of a text. -/
def eventsOf (s : List Char) : List Json :=
  (dropLastL (splitBlank s)).filterMap processMessage

/-- Dispatch events to the callback in order; `p e = true` means the
callback throws on event `e`.  Returns the events actually passed to the
callback (including the throwing one) and whether a throw occurred. -/
def dispatchUntil (p : Json → Bool) : List Json → List Json × Bool
  | [] => ([], false)
  | e :: rest =>
    if p e then ([e], true)
    else
      let r := dispatchUntil p rest
      (e :: r.1, r.2)

/-- The chunk loop of `streamAnalysis`: append the chunk to the buffer,
split on `"\n\n"`, keep the last fragment as the new buffer, process and
dispatch the complete messages; a callback throw aborts the loop. -/
def runLoop (p : Json → Bool) : List Char → List (List Char) → List Json × Bool
  | _, [] => ([], false)
  | buf, c :: cs =>
    let parts := splitBlank (buf ++ c)
    let r := dispatchUntil p ((dropLastL parts).filterMap processMessage)
    if r.2 then (r.1, true)
    else
      let r2 := runLoop p (lastD parts) cs
      (r.1 ++ r2.1, r2.2)

/-- Outcomes of the transport underneath `fetch`. -/
inductive Transport where
  | fetchFailure (msg : List Char) : Transport
  | httpError (status : Nat) (body : List Char) : Transport
  | noBody : Transport
  | ok (chunks : List (List Char)) : Transport
  | okInterrupted (chunks : List (List Char)) (msg : List Char) : Transport

/-- The `error` event synthesized in the catch block. -/
def errorEvent (msg : List Char) : Json :=
  Json.obj [("type".toList, Json.str "error".toList),
            ("content".toList, Json.str ("Connection error: ".toList ++ msg))]

/-- The `done` event synthesized in the catch block. -/
def doneEvent : Json :=
  Json.obj [("type".toList, Json.str "done".toList), ("content".toList, Json.null)]

/-- The message of the error thrown on a non-2xx response. -/
def httpErrorMsg (status : Nat) (body : List Char) : List Char :=
  "HTTP error! status: ".toList ++ (Nat.repr status).toList
    ++ ", message: ".toList ++ body

/-- Result of one `streamAnalysis` call: the events passed to the callback
in order, and whether the returned promise rejects. -/
structure RunResult where
  calls : List Json
  threw : Bool

/-- The catch block: dispatch a synthesized `error` event then a
synthesized `done` event; if the callback itself throws on either, the
exception escapes `streamAnalysis`. -/
def catchHandler (p : Json → Bool) (msg : List Char) : RunResult :=
  let e := errorEvent msg
  if p e then ⟨[e], true⟩
  else if p doneEvent then ⟨[e, doneEvent], true⟩
  else ⟨[e, doneEvent], false⟩

/-- Model of `streamAnalysis`: `p` tells on which event values the
caller-supplied callback throws, `cbMsg` is the message of the error a
throwing callback raises, and the transport outcome selects the branch of
the source code that runs. -/
def streamAnalysis (p : Json → Bool) (cbMsg : List Char) : Transport → RunResult
  | Transport.fetchFailure msg => catchHandler p msg
  | Transport.httpError status body => catchHandler p (httpErrorMsg status body)
  | Transport.noBody => catchHandler p "Response body is not readable".toList
  | Transport.ok chunks =>
    let r := runLoop p [] chunks
    if r.2 then
      let c := catchHandler p cbMsg
      ⟨r.1 ++ c.calls, c.threw⟩
    else ⟨r.1, false⟩
  | Transport.okInterrupted chunks msg =>
    let r := runLoop p [] chunks
    if r.2 then
      let c := catchHandler p cbMsg
      ⟨r.1 ++ c.calls, c.threw⟩
    else
      let c := catchHandler p msg
      ⟨r.1 ++ c.calls, c.threw⟩

/-- A callback that never throws. -/
def noThrow : Json → Bool := fun _ => false

/-- Chunk 1 of the end-to-end scenario. -/
def c1chunk : List Char := "data: \x7b\"typ".toList

/-- Chunk 2 of the end-to-end scenario. -/
def c2chunk : List Char := "e\":\"title\",\"content\":\"Hi\"\x7d\n\n".toList

/-- Chunk 3 of the end-to-end scenario: a complete `done` message. -/
def c3chunk : List Char := "data: \x7b\"type\":\"done\",\"content\":null\x7d\n\n".toList

/-- A complete `title` message with content `"Hi"`. -/
def titleChunk : List Char := "data: \x7b\"type\":\"title\",\"content\":\"Hi\"\x7d\n\n".toList

/-- The decoded `title` event with content `"Hi"`. -/
def titleHiEvent : Json :=
  Json.obj [("type".toList, Json.str "title".toList),
            ("content".toList, Json.str "Hi".toList)]

/-- Client-side projection of a `thinking_step` event (the `ThinkingStep`
interface).  The optional string fields model the protocol's string-typed
`preview` / `output`; `details` may be any JSON value. -/
structure ThinkingStep where
  step : List Char
  message : List Char
  details : Option Json
  preview : Option (List Char)
  output : Option (List Char)
  timestamp : Nat

/-- JavaScript coercion of an optional string: `undefined` and absent both
behave as the empty (falsy) string under `||` and `.length`. -/
def optStr : Option (List Char) → List Char
  | none => []
  | some s => s

/-- Truthiness of the optional `details` payload. -/
def optJsonTruthy : Option Json → Bool
  | none => false
  | some j => jsonTruthy j

/-- Truthiness of `step.preview || step.output || step.details`, the
eligibility test used by both reveal effects. -/
def hasContent (s : ThinkingStep) : Bool :=
  !(optStr s.preview = []) || !(optStr s.output = []) || optJsonTruthy s.details

/-- Resolution of the content to reveal, line 97 of `MainContent.tsx`:
`step.preview || step.output || (step.details ? JSON.stringify(step.details, null, 2) : '')`. -/
def contentToStream (s : ThinkingStep) : List Char :=
  if optStr s.preview ≠ [] then optStr s.preview
  else if optStr s.output ≠ [] then optStr s.output
  else if optJsonTruthy s.details then jsonStringify 0 (s.details.getD Json.null)
  else []

/-- Scan a step list for the first step satisfying `p`, reporting its
absolute index given that the list starts at index `base`. -/
def findIndexFrom (p : ThinkingStep → Bool) : List ThinkingStep → Nat → Option Nat
  | [], _ => none
  | s :: rest, base => if p s then some base else findIndexFrom p rest (base + 1)

/-- First index `≥ i` of a step with disclosable content (the `while` scan
of the advancing effect, and — at `i = 0` — the `findIndex` of the starter
effect). -/
def findContentFrom (hist : List ThinkingStep) (i : Nat) : Option Nat :=
  findIndexFrom hasContent (hist.drop i) i

/-- Accumulated shape of the final response object. -/
structure ResponseState where
  paragraphs : List Json
  metadata : Option Json
  userType : List Char
  overallTitle : Json

/-- The component state of `MainContent` relevant to the streaming query
lifecycle. -/
structure AppState where
  isLoading : Bool
  isQuerySubmitted : Bool
  response : Option ResponseState
  overallTitle : Json
  thinkingHistory : List ThinkingStep
  showTransition : Bool
  expandedSteps : List Nat
  streamingStepIndex : Option Nat
  streamedText : List Char
  streamSpeed : Nat

/-- Closure-local state of one `handleSubmit` invocation: the collected
paragraphs and metadata, and the render-time snapshot of `overallTitle`
that the callback closes over. -/
structure HandlerCtx where
  collectedParagraphs : List Json
  collectedMetadata : Option Json
  capturedTitle : Json

/-- The starter effect (lines 128–138): when steps exist, nothing is
streaming and the query is loading, enter the first step — scanning from
index 0 — that has disclosable content. -/
def effect2 (st : AppState) : AppState :=
  if 0 < st.thinkingHistory.length ∧ st.streamingStepIndex = none ∧ st.isLoading = true then
    match findContentFrom st.thinkingHistory 0 with
    | some i => { st with streamingStepIndex := some i, expandedSteps := [i] }
    | none => st
  else st

/-- One firing of the streaming effect's timer (lines 91–126): either the
50 ms typing step that extends `streamedText` by `streamSpeed` characters
clamped to the content length, or the 300 ms settling step that clears the
reveal state and advances to the next step with content (or to `none`). -/
def tick (st : AppState) : AppState :=
  match st.streamingStepIndex with
  | none => st
  | some i =>
    if st.isLoading = false then st
    else
      match st.thinkingHistory[i]? with
      | none => st
      | some step =>
        if contentToStream step = []
            ∨ (contentToStream step).length ≤ st.streamedText.length then
          match findContentFrom st.thinkingHistory (i + 1) with
          | some j =>
            { st with expandedSteps := [j], streamedText := ([] : List Char),
                      streamingStepIndex := some j }
          | none =>
            { st with expandedSteps := ([] : List Nat), streamedText := ([] : List Char),
                      streamingStepIndex := none }
        else
          { st with streamedText := (contentToStream step).take (Nat.min (st.streamedText.length + st.streamSpeed) (contentToStream step).length) }

/-- One timer firing followed by the post-commit run of the starter
effect, which React executes after every state change. -/
def schedulerStep (st : AppState) : AppState := effect2 (tick st)

/-- The synchronous prefix of `handleSubmit` (lines 140–158): reject blank
queries, otherwise reset all per-query state and create the callback's
closure context. -/
def handleSubmit (finalQuery : List Char) (st : AppState) : Option (AppState × HandlerCtx) :=
  if trimChars finalQuery = [] then none
  else
    some ({ st with
              isLoading := true
              isQuerySubmitted := true
              response := none
              overallTitle := Json.str []
              thinkingHistory := []
              expandedSteps := []
              showTransition := false
              streamingStepIndex := none
              streamedText := [] },
          { collectedParagraphs := []
            collectedMetadata := none
            capturedTitle := st.overallTitle })

/-- The `type` field of an event, when it is a string. -/
def typeOf (e : Json) : List Char :=
  match e with
  | Json.obj fs =>
    match lookupField fs "type".toList with
    | some (Json.str s) => s
    | _ => []
  | _ => []

/-- The `content` field of an event (`null` standing in for `undefined`). -/
def contentOf (e : Json) : Json :=
  match e with
  | Json.obj fs => (lookupField fs "content".toList).getD Json.null
  | _ => Json.null

/-- A string-valued field of a JSON object. -/
def strField (j : Json) (k : List Char) : Option (List Char) :=
  match j with
  | Json.obj fs =>
    match lookupField fs k with
    | some (Json.str s) => some s
    | _ => none
  | _ => none

/-- An arbitrary field of a JSON object. -/
def jsonField (j : Json) (k : List Char) : Option Json :=
  match j with
  | Json.obj fs => lookupField fs k
  | _ => none

/-- Build the `ThinkingStep` appended on a `thinking_step` event:
`{ ...event.content, timestamp: Date.now() }`. -/
def stepOfContent (c : Json) (now : Nat) : ThinkingStep :=
  { step := (strField c "step".toList).getD []
    message := (strField c "message".toList).getD []
    details := jsonField c "details".toList
    preview := strField c "preview".toList
    output := strField c "output".toList
    timestamp := now }

/-- The event callback of `handleSubmit` (lines 166–207): fold one stream
event into the UI state and the closure context.  The 1-second transition
delay of the `done` branch is collapsed into the same update. -/
def handleEvent (userType : List Char) (now : Nat) (st : AppState) (ctx : HandlerCtx)
    (e : Json) : AppState × HandlerCtx :=
  let t := typeOf e
  if t = "thinking_step".toList then
    ({ st with thinkingHistory := st.thinkingHistory ++ [stepOfContent (contentOf e) now] }, ctx)
  else if t = "title".toList then
    ({ st with overallTitle := contentOf e }, ctx)
  else if t = "paragraph".toList then
    let paras := ctx.collectedParagraphs ++ [contentOf e]
    let resp := ResponseState.mk paras ctx.collectedMetadata userType ctx.capturedTitle
    ({ st with response := some resp }, { ctx with collectedParagraphs := paras })
  else if t = "metadata".toList then
    let resp := ResponseState.mk ctx.collectedParagraphs (some (contentOf e)) userType
                  ctx.capturedTitle
    ({ st with response := some resp }, { ctx with collectedMetadata := some (contentOf e) })
  else if t = "error".toList then
    (st, ctx)
  else if t = "done".toList then
    ({ st with showTransition := true, isLoading := false, isQuerySubmitted := false }, ctx)
  else (st, ctx)

/-- A loading state whose step list is `hist` and whose reveal state is
idle, as right after `handleSubmit` reset it and the first steps arrived. -/
def mkUI (hist : List ThinkingStep) : AppState :=
  { isLoading := true
    isQuerySubmitted := true
    response := none
    overallTitle := Json.str []
    thinkingHistory := hist
    showTransition := false
    expandedSteps := []
    streamingStepIndex := none
    streamedText := []
    streamSpeed := 5 }

/-- Step A of the §8 scenario: status only, no disclosable content. -/
def stepA : ThinkingStep :=
  { step := "agent".toList, message := "starting".toList,
    details := none, preview := none, output := none, timestamp := 0 }

/-- Step B of the §8 scenario: preview `"xy"`. -/
def stepB : ThinkingStep :=
  { step := "retrieval".toList, message := "reading".toList,
    details := none, preview := some "xy".toList, output := none, timestamp := 1 }

/-- Step C of the §8 scenario: output `"z"`. -/
def stepC : ThinkingStep :=
  { step := "search".toList, message := "searching".toList,
    details := none, preview := none, output := some "z".toList, timestamp := 2 }

/-- A complete `title` message with content `"X"`. -/
def titleXChunk : List Char := "data: \x7b\"type\":\"title\",\"content\":\"X\"\x7d\n\n".toList

/-- The decoded `title` event with content `"X"`. -/
def titleXEvent : Json :=
  Json.obj [("type".toList, Json.str "title".toList),
            ("content".toList, Json.str "X".toList)]

/-- A callback that throws on every event it is given. -/
def throwAlways : Json → Bool := fun _ => true

/-- A callback that throws exactly on `title` events. -/
def throwOnTitle : Json → Bool := fun e => decide (typeOf e = "title".toList)

/-- The scenario state after the starter effect first runs on the step
list `[A, B, C]` of §8. -/
def revealS1 : AppState := effect2 (mkUI [stepA, stepB, stepC])

/-- Second state of the reveal cycle on `[A, B, C]`. -/
def revealS2 : AppState := schedulerStep revealS1

/-- Third state of the reveal cycle on `[A, B, C]`. -/
def revealS3 : AppState := schedulerStep revealS2

/-- Fourth state of the reveal cycle on `[A, B, C]`. -/
def revealS4 : AppState := schedulerStep revealS3

/-- A state mid-reveal of `stepB` with reveal speed 1 character per tick. -/
def speedOneState : AppState :=
  { mkUI [stepB] with streamSpeed := 1, streamingStepIndex := some 0,
                      expandedSteps := [0] }

/-- A non-loading state with a reveal still in progress: one of stepB's
two preview characters is shown. -/
def frozenState : AppState :=
  { mkUI [stepB] with isLoading := false, streamingStepIndex := some 0,
                      streamedText := ['x'], expandedSteps := [0] }

/-- A `thinking_step` event as delivered by a superseded (old) stream. -/
def oldStreamEvent : Json :=
  Json.obj [("type".toList, Json.str "thinking_step".toList),
            ("content".toList,
              Json.obj [("step".toList, Json.str "agent".toList),
                        ("message".toList, Json.str "old".toList),
                        ("preview".toList, Json.str "stale".toList)])]

/-- A state in the middle of a previous query, before a new submission. -/
def preSubmitState : AppState :=
  { mkUI [stepB] with overallTitle := Json.str "Old".toList }

theorem dropLastL_cons_cons (x y : List Char) (xs : List (List Char)) :
    dropLastL (x :: y :: xs) = x :: dropLastL (y :: xs) := rfl

theorem lastD_cons_cons (x y : List Char) (xs : List (List Char)) :
    lastD (x :: y :: xs) = lastD (y :: xs) := rfl

theorem splitBlank_ne_nil (s : List Char) : splitBlank s ≠ [] := by
  induction s using splitBlank.induct with
  | case1 => simp [splitBlank]
  | case2 c => simp [splitBlank]
  | case3 c1 c2 rest h ih => simp [splitBlank, h]
  | case4 c1 c2 rest h hS ih => exact absurd hS ih
  | case5 c1 c2 rest h m ms hS ih =>
    simp only [splitBlank, if_neg h, hS]
    simp

theorem splitBlank_head_ext (s : List Char) :
    ∀ hd tl, splitBlank s = hd :: tl → ∃ r, s = hd ++ r := by
  induction s using splitBlank.induct with
  | case1 =>
    intro hd tl h
    simp only [splitBlank] at h
    exact ⟨[], by simp [← (List.cons.inj h).1]⟩
  | case2 c =>
    intro hd tl h
    simp only [splitBlank] at h
    exact ⟨[], by simp [← (List.cons.inj h).1]⟩
  | case3 c1 c2 rest h ih =>
    intro hd tl hEq
    simp only [splitBlank, if_pos h] at hEq
    exact ⟨c1 :: c2 :: rest, by simp [← (List.cons.inj hEq).1]⟩
  | case4 c1 c2 rest h hS ih => exact absurd hS (splitBlank_ne_nil _)
  | case5 c1 c2 rest h m ms hS ih =>
    intro hd tl hEq
    simp only [splitBlank, if_neg h, hS] at hEq
    obtain ⟨r, hr⟩ := ih m ms hS
    refine ⟨r, ?_⟩
    rw [← (List.cons.inj hEq).1]
    simp [hr]

theorem splitBlank_cons_ne_single_nil (c : Char) (rest : List Char) :
    splitBlank (c :: rest) ≠ [[]] := by
  match rest with
  | [] => simp [splitBlank]
  | c2 :: rest' =>
    by_cases h : c = '\n' ∧ c2 = '\n'
    · simp only [splitBlank, if_pos h]
      intro hEq
      have := (List.cons.inj hEq).2
      exact splitBlank_ne_nil _ this
    · simp only [splitBlank, if_neg h]
      cases hS : splitBlank (c2 :: rest') with
      | nil => simp
      | cons m ms =>
        intro hEq
        exact absurd (List.cons.inj hEq).1 (by simp)

theorem splitBlank_mem_self (s : List Char) :
    ∀ m, m ∈ splitBlank s → splitBlank m = [m] := by
  induction s using splitBlank.induct with
  | case1 =>
    intro m hm
    simp only [splitBlank, List.mem_singleton] at hm
    simp [hm, splitBlank]
  | case2 c =>
    intro m hm
    simp only [splitBlank, List.mem_singleton] at hm
    simp [hm, splitBlank]
  | case3 c1 c2 rest h ih =>
    intro m hm
    simp only [splitBlank, if_pos h, List.mem_cons] at hm
    rcases hm with hm | hm
    · simp [hm, splitBlank]
    · exact ih m hm
  | case4 c1 c2 rest h hS ih => exact absurd hS (splitBlank_ne_nil _)
  | case5 c1 c2 rest h m ms hS ih =>
    intro x hx
    simp only [splitBlank, if_neg h, hS, List.mem_cons] at hx
    rcases hx with hx | hx
    · subst hx
      cases m with
      | nil => simp [splitBlank]
      | cons d ds =>
        have hm : splitBlank (d :: ds) = [d :: ds] :=
          ih _ (by rw [hS]; exact List.mem_cons_self _ _)
        obtain ⟨r, hr⟩ := splitBlank_head_ext (c2 :: rest) (d :: ds) ms hS
        have hd : d = c2 := ((List.cons.inj hr).1).symm
        have hguard : ¬(c1 = '\n' ∧ d = '\n') := by rw [hd]; exact h
        simp [splitBlank, if_neg hguard, hm]
    · exact ih x (by rw [hS]; exact List.mem_cons_of_mem _ hx)

theorem dropLastL_append (X T : List (List Char)) (hT : T ≠ []) :
    dropLastL (X ++ T) = X ++ dropLastL T := by
  induction X with
  | nil => simp
  | cons x xs ih =>
    cases xs with
    | nil =>
      cases T with
      | nil => exact absurd rfl hT
      | cons t ts => simp [dropLastL]
    | cons y ys =>
      simp only [List.cons_append] at ih ⊢
      rw [dropLastL_cons_cons, ih]

theorem lastD_append (X T : List (List Char)) (hT : T ≠ []) :
    lastD (X ++ T) = lastD T := by
  induction X with
  | nil => simp
  | cons x xs ih =>
    cases xs with
    | nil =>
      cases T with
      | nil => exact absurd rfl hT
      | cons t ts => simp [lastD]
    | cons y ys =>
      simp only [List.cons_append] at ih ⊢
      rw [lastD_cons_cons, ih]

theorem lastD_mem : ∀ (l : List (List Char)), l ≠ [] → lastD l ∈ l
  | [], h => absurd rfl h
  | [x], _ => by simp [lastD]
  | x :: y :: xs, _ => by
    rw [lastD_cons_cons]
    exact List.mem_cons_of_mem _ (lastD_mem (y :: xs) (by simp))

theorem splitBlank_append (u v : List Char) :
    splitBlank (u ++ v)
      = dropLastL (splitBlank u) ++ splitBlank (lastD (splitBlank u) ++ v) := by
  induction u using splitBlank.induct generalizing v with
  | case1 => simp [splitBlank, dropLastL, lastD]
  | case2 c => simp [splitBlank, dropLastL, lastD]
  | case3 c1 c2 rest h ih =>
    obtain ⟨h1, h2⟩ := h
    subst h1; subst h2
    have hLHS : splitBlank (('\n' :: '\n' :: rest) ++ v) = [] :: splitBlank (rest ++ v) := by
      simp only [List.cons_append]
      rw [splitBlank]
      simp
    have hU : splitBlank ('\n' :: '\n' :: rest) = [] :: splitBlank rest := by
      rw [splitBlank]; simp
    obtain ⟨z, zs, hz⟩ : ∃ z zs, splitBlank rest = z :: zs := by
      cases hzz : splitBlank rest with
      | nil => exact absurd hzz (splitBlank_ne_nil _)
      | cons a as => exact ⟨a, as, rfl⟩
    rw [hLHS, hU, hz, ih, hz]
    rw [show dropLastL ([] :: z :: zs) = [] :: dropLastL (z :: zs) from rfl]
    rw [show lastD ([] :: z :: zs) = lastD (z :: zs) from rfl]
    rfl
  | case4 c1 c2 rest h hS ih => exact absurd hS (splitBlank_ne_nil _)
  | case5 c1 c2 rest h m ms hS ih =>
    have hU : splitBlank (c1 :: c2 :: rest) = (c1 :: m) :: ms := by
      rw [splitBlank]
      simp only [if_neg h, hS]
    have hLHS : splitBlank ((c1 :: c2 :: rest) ++ v)
        = match splitBlank ((c2 :: rest) ++ v) with
          | [] => [[c1]]
          | t :: ts => (c1 :: t) :: ts := by
      simp only [List.cons_append]
      rw [splitBlank]
      simp only [if_neg h]
    cases ms with
    | nil =>
      -- splitBlank (c2 :: rest) = [m]; the remainder is m itself
      have hmne : m ≠ [] := by
        intro hme
        rw [hme] at hS
        exact splitBlank_cons_ne_single_nil c2 rest hS
      obtain ⟨d, ds, hm⟩ : ∃ d ds, m = d :: ds := by
        cases m with
        | nil => exact absurd rfl hmne
        | cons d ds => exact ⟨d, ds, rfl⟩
      obtain ⟨r, hr⟩ := splitBlank_head_ext (c2 :: rest) m [] hS
      have hd : d = c2 := by
        rw [hm] at hr
        exact ((List.cons.inj hr).1).symm
      have hih := ih v
      rw [hS] at hih
      rw [show dropLastL [m] = [] from rfl, show lastD [m] = m from rfl] at hih
      rw [List.nil_append] at hih
      -- hih : splitBlank ((c2 :: rest) ++ v) = splitBlank (m ++ v)
      rw [hU]
      rw [show dropLastL [c1 :: m] = [] from rfl, show lastD [c1 :: m] = c1 :: m from rfl]
      rw [List.nil_append]
      -- goal : splitBlank ((c1::c2::rest) ++ v) = splitBlank ((c1 :: m) ++ v)
      have hRHS : splitBlank ((c1 :: m) ++ v)
          = match splitBlank (m ++ v) with
            | [] => [[c1]]
            | t :: ts => (c1 :: t) :: ts := by
        rw [hm]
        simp only [List.cons_append]
        rw [splitBlank]
        have hguard : ¬(c1 = '\n' ∧ d = '\n') := by rw [hd]; exact h
        simp only [if_neg hguard]
      rw [hLHS, hRHS, hih]
    | cons y ys =>
      have hih := ih v
      rw [hS] at hih
      rw [dropLastL_cons_cons, lastD_cons_cons] at hih
      rw [hLHS, hih, hU]
      rw [dropLastL_cons_cons, lastD_cons_cons]
      rfl

theorem dispatchUntil_noThrow (l : List Json) : dispatchUntil noThrow l = (l, false) := by
  induction l with
  | nil => rfl
  | cons e rest ih => simp [dispatchUntil, noThrow, ih]

theorem dispatchUntil_append (p : Json → Bool) (a b : List Json) :
    dispatchUntil p (a ++ b)
      = if (dispatchUntil p a).2 then dispatchUntil p a
        else ((dispatchUntil p a).1 ++ (dispatchUntil p b).1, (dispatchUntil p b).2) := by
  induction a with
  | nil => simp [dispatchUntil]
  | cons e rest ih =>
    by_cases hp : p e
    · simp [dispatchUntil, hp]
    · simp only [List.cons_append, dispatchUntil, hp, Bool.false_eq_true, if_false]
      rw [show rest.append b = rest ++ b from rfl, ih]
      by_cases h2 : (dispatchUntil p rest).2 <;> simp [h2]

theorem dispatchUntil_spec (p : Json → Bool) (l : List Json) :
    (dispatchUntil p l).1
        = l.takeWhile (fun e => !p e) ++ (l.dropWhile (fun e => !p e)).take 1
      ∧ (dispatchUntil p l).2 = l.any p := by
  induction l with
  | nil => simp [dispatchUntil]
  | cons e rest ih =>
    by_cases hp : p e
    · simp [dispatchUntil, hp]
    · simp [dispatchUntil, hp, ih.1, ih.2]

theorem runLoop_eq (p : Json → Bool) (chunks : List (List Char)) :
    ∀ buf, splitBlank buf = [buf] →
      runLoop p buf chunks = dispatchUntil p (eventsOf (buf ++ joinChunks chunks)) := by
  induction chunks with
  | nil =>
    intro buf hbuf
    simp only [runLoop, joinChunks, List.append_nil, eventsOf, hbuf]
    rfl
  | cons c cs ih =>
    intro buf hbuf
    have hassoc : buf ++ joinChunks (c :: cs) = (buf ++ c) ++ joinChunks cs := by
      simp [joinChunks, List.append_assoc]
    rw [hassoc]
    have hSne : splitBlank (buf ++ c) ≠ [] := splitBlank_ne_nil _
    have hlast : splitBlank (lastD (splitBlank (buf ++ c))) = [lastD (splitBlank (buf ++ c))] :=
      splitBlank_mem_self _ _ (lastD_mem _ hSne)
    have hTne : splitBlank (lastD (splitBlank (buf ++ c)) ++ joinChunks cs) ≠ [] :=
      splitBlank_ne_nil _
    rw [eventsOf, splitBlank_append (buf ++ c) (joinChunks cs),
        dropLastL_append _ _ hTne, List.filterMap_append, dispatchUntil_append]
    have hih := ih (lastD (splitBlank (buf ++ c))) hlast
    rw [eventsOf] at hih
    simp only [runLoop, hih]
    cases hr : (dispatchUntil p ((dropLastL (splitBlank (buf ++ c))).filterMap processMessage)).2
    · simp [hr]
    · simp [hr, Prod.ext_iff]

theorem findIndexFrom_spec (p : ThinkingStep → Bool) :
    ∀ (l : List ThinkingStep) (base j : Nat), findIndexFrom p l base = some j →
      ∃ k, j = base + k ∧ ∃ s, l[k]? = some s ∧ p s = true := by
  intro l
  induction l with
  | nil => intro base j h; simp [findIndexFrom] at h
  | cons s rest ih =>
    intro base j h
    simp only [findIndexFrom] at h
    by_cases hp : p s
    · rw [if_pos hp] at h
      refine ⟨0, by simpa using h.symm, s, by simp, hp⟩
    · rw [if_neg hp] at h
      obtain ⟨k, hk, t, hget, hpt⟩ := ih (base + 1) j h
      exact ⟨k + 1, by omega, t, by simpa using hget, hpt⟩

theorem findContentFrom_spec (hist : List ThinkingStep) (i j : Nat)
    (h : findContentFrom hist i = some j) :
    i ≤ j ∧ ∃ s, hist[j]? = some s ∧ hasContent s = true := by
  obtain ⟨k, hk, s, hget, hcon⟩ := findIndexFrom_spec hasContent (hist.drop i) i j h
  subst hk
  refine ⟨by omega, s, ?_, hcon⟩
  rw [← hget, List.getElem?_drop]

theorem effect2_streams_content (st : AppState) (j : Nat) :
    (effect2 st).streamingStepIndex = some j →
      st.streamingStepIndex = some j ∨
        ∃ s, st.thinkingHistory[j]? = some s ∧ hasContent s = true := by
  unfold effect2
  by_cases hc : 0 < st.thinkingHistory.length ∧ st.streamingStepIndex = none
      ∧ st.isLoading = true
  · rw [if_pos hc]
    cases hf : findContentFrom st.thinkingHistory 0 with
    | none => intro h; exact Or.inl h
    | some i =>
      intro h
      have hij : i = j := Option.some.inj h
      subst hij
      exact Or.inr (findContentFrom_spec _ _ _ hf).2
  · rw [if_neg hc]
    intro h
    exact Or.inl h

theorem tick_streams_content (st : AppState) (j : Nat) :
    (tick st).streamingStepIndex = some j →
      st.streamingStepIndex = some j ∨
        ∃ s, st.thinkingHistory[j]? = some s ∧ hasContent s = true := by
  unfold tick
  split
  · intro h
    exact Or.inl h
  · rename_i i heq
    split
    · intro h
      exact Or.inl h
    · split
      · intro h
        exact Or.inl h
      · rename_i step hstep
        by_cases hdone : contentToStream step = []
            ∨ (contentToStream step).length ≤ st.streamedText.length
        · rw [if_pos hdone]
          split
          · rename_i k hf
            intro h
            have hkj : k = j := Option.some.inj h
            subst hkj
            exact Or.inr (findContentFrom_spec _ _ _ hf).2
          · intro h
            exact Option.noConfusion h
        · rw [if_neg hdone]
          intro h
          exact Or.inl h

theorem tick_typing (st : AppState) (i : Nat) (step : ThinkingStep)
    (hidx : st.streamingStepIndex = some i)
    (hl : st.isLoading = true)
    (hstep : st.thinkingHistory[i]? = some step)
    (hne : contentToStream step ≠ [])
    (hlt : st.streamedText.length < (contentToStream step).length) :
    (tick st).streamedText
        = (contentToStream step).take
            (Nat.min (st.streamedText.length + st.streamSpeed) (contentToStream step).length)
      ∧ (tick st).streamedText.length
          = Nat.min (st.streamedText.length + st.streamSpeed) (contentToStream step).length
      ∧ st.streamedText.length ≤ (tick st).streamedText.length
      ∧ (tick st).streamedText.length ≤ (contentToStream step).length
      ∧ (tick st).streamingStepIndex = st.streamingStepIndex := by
  have hguard : ¬(contentToStream step = []
      ∨ (contentToStream step).length ≤ st.streamedText.length) := by
    push_neg
    exact ⟨hne, hlt⟩
  unfold tick
  split
  · rename_i hnone
    rw [hidx] at hnone
    exact Option.noConfusion hnone
  · rename_i i' heq
    rw [hidx] at heq
    have hii : i' = i := (Option.some.inj heq).symm
    subst hii
    split
    · rename_i hl'
      rw [hl] at hl'
      exact Bool.noConfusion hl'
    · split
      · rename_i hnone
        rw [hstep] at hnone
        exact Option.noConfusion hnone
      · rename_i step' hstep'
        rw [hstep] at hstep'
        have hss : step' = step := (Option.some.inj hstep').symm
        subst hss
        rw [if_neg hguard]
        refine ⟨rfl, ?_, ?_, ?_, rfl⟩
        all_goals simp [List.length_take]
        all_goals omega

theorem tick_index_change_resets (st : AppState) :
    (tick st).streamingStepIndex ≠ st.streamingStepIndex → (tick st).streamedText = [] := by
  unfold tick
  split
  · intro h
    exact absurd rfl h
  · rename_i i heq
    split
    · intro h
      exact absurd rfl h
    · split
      · intro h
        exact absurd rfl h
      · rename_i step hstep
        by_cases hdone : contentToStream step = []
            ∨ (contentToStream step).length ≤ st.streamedText.length
        · rw [if_pos hdone]
          split
          · intro _
            rfl
          · intro _
            rfl
        · rw [if_neg hdone]
          intro h
          exact absurd rfl h

theorem effect2_preserves_text (st : AppState) :
    (effect2 st).streamedText = st.streamedText := by
  unfold effect2
  by_cases hc : 0 < st.thinkingHistory.length ∧ st.streamingStepIndex = none
      ∧ st.isLoading = true
  · rw [if_pos hc]
    cases hf : findContentFrom st.thinkingHistory 0 <;> rfl
  · rw [if_neg hc]

theorem reveal_frozen_when_not_loading (st : AppState) (h : st.isLoading = false) :
    tick st = st ∧ effect2 st = st := by
  constructor
  · unfold tick
    split
    · rfl
    · rw [if_pos h]
  · unfold effect2
    rw [if_neg (by simp [h])]

theorem streamAnalysis_ok_calls (chunks : List (List Char)) :
    streamAnalysis noThrow [] (Transport.ok chunks)
      = ⟨eventsOf (joinChunks chunks), false⟩ := by
  have h := runLoop_eq noThrow chunks [] rfl
  rw [dispatchUntil_noThrow] at h
  simp [streamAnalysis, h, List.nil_append]

/-- C1: for every body and every way of cutting it into chunks, the
stream client dispatches the same ordered event sequence as delivering the
whole body at once; in particular the three-chunk scenario of §8 delivers
exactly the `title "Hi"` event followed by the `done` event. -/
theorem rechunking_invariant :
    (∀ chunks : List (List Char),
      (streamAnalysis noThrow [] (Transport.ok chunks)).calls
        = (streamAnalysis noThrow [] (Transport.ok [joinChunks chunks])).calls)
    ∧ (streamAnalysis noThrow [] (Transport.ok [c1chunk, c2chunk, c3chunk])).calls
        = [titleHiEvent, doneEvent] := by
  constructor
  · intro chunks
    rw [streamAnalysis_ok_calls, streamAnalysis_ok_calls]
    have hj : joinChunks [joinChunks chunks] = joinChunks chunks := by
      simp [joinChunks]
    rw [hj]
  · rfl

/-- C2: when the transport cannot be opened, reports a non-success HTTP
status, or exposes no readable byte stream, the client delivers exactly
one synthesized `error` event followed by exactly one `done` event, and
nothing else, and `streamAnalysis` returns normally. -/
theorem failure_delivers_error_then_done :
    ∀ (msg body : List Char) (status : Nat),
      streamAnalysis noThrow [] (Transport.fetchFailure msg)
          = ⟨[errorEvent msg, doneEvent], false⟩
      ∧ streamAnalysis noThrow [] (Transport.httpError status body)
          = ⟨[errorEvent (httpErrorMsg status body), doneEvent], false⟩
      ∧ streamAnalysis noThrow [] Transport.noBody
          = ⟨[errorEvent "Response body is not readable".toList, doneEvent], false⟩ :=
  fun _ _ _ => ⟨rfl, rfl, rfl⟩

/-- C9: when the byte stream ends normally, `streamAnalysis` returns after
dispatching exactly the events parsed from the body — nothing is
synthesized, so no `done` event is delivered unless the body contained
one; concretely, a body holding only a `title` message produces only the
`title` event and no terminal `done`. -/
theorem normal_eos_no_synthetic_done :
    (∀ chunks : List (List Char),
      streamAnalysis noThrow [] (Transport.ok chunks)
        = ⟨eventsOf (joinChunks chunks), false⟩)
    ∧ (streamAnalysis noThrow [] (Transport.ok [titleChunk])).calls = [titleHiEvent] :=
  ⟨streamAnalysis_ok_calls, rfl⟩

theorem joinChunks_append (a b : List (List Char)) :
    joinChunks (a ++ b) = joinChunks a ++ joinChunks b := by
  induction a with
  | nil => simp [joinChunks]
  | cons c cs ih => simp [joinChunks, ih]

/-- C6 counterexample: a body whose `done` message is followed by a
further message within the same response; the loop only stops on
end-of-stream, so the later `title` event is still parsed and dispatched
after the `done`, contradicting the claim that a `done` ends processing. -/
theorem events_after_done_dispatched :
    (streamAnalysis noThrow [] (Transport.ok [c3chunk ++ titleXChunk])).calls
      = [doneEvent, titleXEvent] := rfl

/-- C6 amended: observing a `done` event does not by itself end the
stream — processing stops only at transport end-of-stream — but whenever
the `done` message is the final complete message of the body (the buffer
is empty when it arrives), `done` is the last event dispatched. -/
theorem done_last_when_final_message :
    ∀ pre : List (List Char),
      lastD (splitBlank (joinChunks pre)) = [] →
      (streamAnalysis noThrow [] (Transport.ok (pre ++ [c3chunk]))).calls
        = (streamAnalysis noThrow [] (Transport.ok pre)).calls ++ [doneEvent] := by
  intro pre hbuf
  rw [streamAnalysis_ok_calls, streamAnalysis_ok_calls]
  rw [joinChunks_append]
  have hsingle : joinChunks [c3chunk] = c3chunk := by simp [joinChunks]
  rw [hsingle]
  rw [eventsOf, splitBlank_append (joinChunks pre) c3chunk, hbuf]
  rw [dropLastL_append _ _ (splitBlank_ne_nil _), List.filterMap_append]
  have htail : (dropLastL (splitBlank ([] ++ c3chunk))).filterMap processMessage
      = [doneEvent] := rfl
  rw [htail, eventsOf]

theorem done_last_when_final_message_witness :
    lastD (splitBlank (joinChunks [titleChunk])) = []
    ∧ (streamAnalysis noThrow [] (Transport.ok ([titleChunk] ++ [c3chunk]))).calls
        = (streamAnalysis noThrow [] (Transport.ok [titleChunk])).calls ++ [doneEvent] :=
  ⟨rfl, done_last_when_final_message [titleChunk] rfl⟩

/-- C10 counterexample: a callback that throws on every invocation.  The
first dispatched event aborts the loop; the catch block then invokes the
callback with the synthesized `error` event, which throws again, so the
`done` event is never delivered and `streamAnalysis` itself rejects —
contradicting the claim that `error` is always followed by `done` before
returning. -/
theorem throwing_callback_no_done :
    streamAnalysis throwAlways "boom".toList (Transport.ok [titleChunk])
      = ⟨[titleHiEvent, errorEvent "boom".toList], true⟩ := rfl

/-- C10 amended: if the callback throws while an event is dispatched, the
client stops processing — exactly the events up to and including the first
throwing one are dispatched, none of the remaining buffered or later
messages — and then, provided the callback does not also throw on the two
synthesized invocations, it is invoked with an `error` event followed by a
`done` event and `streamAnalysis` returns normally. -/
theorem callback_throw_aborts :
    ∀ (p : Json → Bool) (cbMsg : List Char) (chunks : List (List Char)),
      p (errorEvent cbMsg) = false →
      p doneEvent = false →
      (eventsOf (joinChunks chunks)).any p = true →
      (streamAnalysis p cbMsg (Transport.ok chunks)).calls
          = (dispatchUntil p (eventsOf (joinChunks chunks))).1
              ++ [errorEvent cbMsg, doneEvent]
        ∧ (streamAnalysis p cbMsg (Transport.ok chunks)).threw = false
        ∧ (dispatchUntil p (eventsOf (joinChunks chunks))).1
            = (eventsOf (joinChunks chunks)).takeWhile (fun e => !p e)
              ++ ((eventsOf (joinChunks chunks)).dropWhile (fun e => !p e)).take 1 := by
  intro p cbMsg chunks hperr hpdone hany
  have h := runLoop_eq p chunks [] rfl
  rw [List.nil_append] at h
  have hthrew : (dispatchUntil p (eventsOf (joinChunks chunks))).2 = true := by
    rw [(dispatchUntil_spec p _).2]
    exact hany
  refine ⟨?_, ?_, (dispatchUntil_spec p _).1⟩
  · simp [streamAnalysis, h, hthrew, catchHandler, hperr, hpdone]
  · simp [streamAnalysis, h, hthrew, catchHandler, hperr, hpdone]

theorem callback_throw_aborts_witness :
    throwOnTitle (errorEvent "boom".toList) = false
    ∧ throwOnTitle doneEvent = false
    ∧ (eventsOf (joinChunks [titleChunk])).any throwOnTitle = true
    ∧ ((streamAnalysis throwOnTitle "boom".toList (Transport.ok [titleChunk])).calls
          = (dispatchUntil throwOnTitle (eventsOf (joinChunks [titleChunk]))).1
              ++ [errorEvent "boom".toList, doneEvent]
        ∧ (streamAnalysis throwOnTitle "boom".toList (Transport.ok [titleChunk])).threw = false
        ∧ (dispatchUntil throwOnTitle (eventsOf (joinChunks [titleChunk]))).1
            = (eventsOf (joinChunks [titleChunk])).takeWhile (fun e => !throwOnTitle e)
              ++ ((eventsOf (joinChunks [titleChunk])).dropWhile
                    (fun e => !throwOnTitle e)).take 1) :=
  ⟨rfl, rfl, rfl, callback_throw_aborts throwOnTitle "boom".toList [titleChunk] rfl rfl rfl⟩

/-- C8: the content revealed for a step is resolved in priority order —
`preview` if truthy, else `output` if truthy, else the
`JSON.stringify(details, null, 2)` rendering when `details` is truthy,
else empty — and it always equals exactly one of these, never a
combination of two fields. -/
theorem content_resolution (s : ThinkingStep) :
    (optStr s.preview ≠ [] → contentToStream s = optStr s.preview)
    ∧ (optStr s.preview = [] → optStr s.output ≠ [] → contentToStream s = optStr s.output)
    ∧ (optStr s.preview = [] → optStr s.output = [] → optJsonTruthy s.details = true →
        contentToStream s = jsonStringify 0 (s.details.getD Json.null))
    ∧ (optStr s.preview = [] → optStr s.output = [] → optJsonTruthy s.details = false →
        contentToStream s = [])
    ∧ (contentToStream s = optStr s.preview ∨ contentToStream s = optStr s.output
        ∨ contentToStream s = jsonStringify 0 (s.details.getD Json.null)
        ∨ contentToStream s = []) := by
  by_cases h1 : optStr s.preview = []
  · by_cases h2 : optStr s.output = []
    · by_cases h3 : optJsonTruthy s.details
      · simp [contentToStream, h1, h2, h3]
      · simp [contentToStream, h1, h2, h3]
    · simp [contentToStream, h1, h2]
  · simp [contentToStream, h1]

theorem content_resolution_witness :
    contentToStream stepB = optStr stepB.preview :=
  (content_resolution stepB).1 (by decide)

theorem revealCycle (n : Nat) :
    schedulerStep^[n] revealS1 = revealS1 ∨ schedulerStep^[n] revealS1 = revealS2
      ∨ schedulerStep^[n] revealS1 = revealS3 ∨ schedulerStep^[n] revealS1 = revealS4 := by
  induction n with
  | zero => exact Or.inl rfl
  | succ n ih =>
    rw [Function.iterate_succ_apply']
    rcases ih with h | h | h | h <;> rw [h]
    · exact Or.inr (Or.inl rfl)
    · exact Or.inr (Or.inr (Or.inl rfl))
    · exact Or.inr (Or.inr (Or.inr rfl))
    · exact Or.inl (show schedulerStep revealS4 = revealS1 from rfl)

/-- C3 counterexample: with the step list `[B(preview), C(output)]` the
controller reveals index 0, then index 1; after finishing the last step it
returns to idle and the starter effect — which scans with `findIndex` from
index 0, not from the previous streaming index — immediately re-enters
`Revealing(0)`, an index strictly below the previous streaming index 1. -/
theorem reveal_restarts_from_zero :
    (schedulerStep (schedulerStep (schedulerStep
        (effect2 (mkUI [stepB, stepC]))))).streamingStepIndex = some 1
    ∧ (schedulerStep (schedulerStep (schedulerStep (schedulerStep
        (effect2 (mkUI [stepB, stepC])))))).streamingStepIndex = some 0 :=
  ⟨rfl, rfl⟩

/-- C3 amended: whenever either reveal effect makes a step the streaming
one, that step has truthy disclosable content — status-only steps never
enter `Revealing` — but the re-entry index is not bounded below by the
previous streaming index (the starter effect rescans from 0).  On the §8
list `[A(no content), B(preview), C(output)]` the controller first enters
`Revealing(1)` and never enters `Revealing(0)` at any point of the run. -/
theorem reveal_enters_content_steps_only :
    (∀ (st : AppState) (j : Nat),
        (effect2 st).streamingStepIndex = some j →
          st.streamingStepIndex = some j ∨
            ∃ s, st.thinkingHistory[j]? = some s ∧ hasContent s = true)
    ∧ (∀ (st : AppState) (j : Nat),
        (tick st).streamingStepIndex = some j →
          st.streamingStepIndex = some j ∨
            ∃ s, st.thinkingHistory[j]? = some s ∧ hasContent s = true)
    ∧ revealS1.streamingStepIndex = some 1
    ∧ (∀ n : Nat, (schedulerStep^[n] revealS1).streamingStepIndex ≠ some 0) := by
  refine ⟨effect2_streams_content, tick_streams_content, rfl, ?_⟩
  intro n
  rcases revealCycle n with h | h | h | h <;> rw [h] <;> decide

theorem reveal_enters_content_steps_only_witness :
    (mkUI [stepA, stepB, stepC]).streamingStepIndex = some 1
      ∨ ∃ s, (mkUI [stepA, stepB, stepC]).thinkingHistory[1]? = some s
          ∧ hasContent s = true :=
  reveal_enters_content_steps_only.1 (mkUI [stepA, stepB, stepC]) 1 rfl

/-- C4: while the streaming index is fixed, a typing tick extends the
revealed text to `min (length + speed) (content length)` characters, so
the revealed length is non-decreasing and never exceeds the content
length and the index is unchanged; with speed 1 the content `"xy"`
reaches length 2 in exactly 2 ticks (after 1 tick the length is 1, not
2); and whenever a tick changes the streaming index the revealed text is
reset to empty, while the starter effect never changes the revealed
text. -/
theorem reveal_progress_clamped :
    (∀ (st : AppState) (i : Nat) (step : ThinkingStep),
        st.streamingStepIndex = some i →
        st.isLoading = true →
        st.thinkingHistory[i]? = some step →
        contentToStream step ≠ [] →
        st.streamedText.length < (contentToStream step).length →
        (tick st).streamedText
            = (contentToStream step).take
                (Nat.min (st.streamedText.length + st.streamSpeed)
                  (contentToStream step).length)
          ∧ (tick st).streamedText.length
              = Nat.min (st.streamedText.length + st.streamSpeed)
                  (contentToStream step).length
          ∧ st.streamedText.length ≤ (tick st).streamedText.length
          ∧ (tick st).streamedText.length ≤ (contentToStream step).length
          ∧ (tick st).streamingStepIndex = st.streamingStepIndex)
    ∧ ((tick speedOneState).streamedText.length = 1
        ∧ (tick (tick speedOneState)).streamedText.length = 2
        ∧ (tick speedOneState).streamedText.length ≠ 2)
    ∧ (∀ st : AppState,
        (tick st).streamingStepIndex ≠ st.streamingStepIndex →
          (tick st).streamedText = [])
    ∧ (∀ st : AppState, (effect2 st).streamedText = st.streamedText) := by
  refine ⟨tick_typing, ⟨rfl, rfl, by decide⟩, tick_index_change_resets,
    effect2_preserves_text⟩

theorem reveal_progress_clamped_witness :
    (tick speedOneState).streamedText
        = (contentToStream stepB).take
            (Nat.min (speedOneState.streamedText.length + speedOneState.streamSpeed)
              (contentToStream stepB).length)
      ∧ (tick speedOneState).streamedText.length
          = Nat.min (speedOneState.streamedText.length + speedOneState.streamSpeed)
              (contentToStream stepB).length
      ∧ speedOneState.streamedText.length ≤ (tick speedOneState).streamedText.length
      ∧ (tick speedOneState).streamedText.length ≤ (contentToStream stepB).length
      ∧ (tick speedOneState).streamingStepIndex = speedOneState.streamingStepIndex :=
  reveal_progress_clamped.1 speedOneState 0 stepB rfl rfl rfl (by decide) (by decide)

/-- C7 counterexample: once `isLoading` is false, the streaming effect
returns before arming any timer, so a reveal that was in progress — here
1 of the 2 characters of stepB's content shown — never advances: a tick
leaves the state untouched instead of letting the reveal finish. -/
theorem frozen_reveal_counterexample :
    tick frozenState = frozenState
    ∧ frozenState.streamedText.length = 1
    ∧ (contentToStream stepB).length = 2 := ⟨rfl, rfl, rfl⟩

/-- C7 amended: once the query is no longer loading, no new
`Idle → Revealing` transition is initiated and no in-progress reveal
advances either — both reveal effects leave the state unchanged, so an
unfinished reveal is frozen rather than allowed to finish. -/
theorem no_reveal_activity_after_loading (st : AppState) (h : st.isLoading = false) :
    tick st = st ∧ effect2 st = st :=
  reveal_frozen_when_not_loading st h

theorem no_reveal_activity_after_loading_witness :
    tick frozenState = frozenState ∧ effect2 frozenState = frozenState :=
  no_reveal_activity_after_loading frozenState rfl

/-- C5 counterexample: submitting a new query resets the ThinkingStep
list to `[]`, but the state carries no request-generation tag and the
event handler applies every event unconditionally; so when the superseded
stream's callback fires afterwards with `oldStreamEvent`, it appends a
step to the *current* query's list — the old-generation event does mutate
current UI state. -/
theorem stale_event_mutates_new_query :
    ((handleSubmit "next".toList preSubmitState).map (fun r => r.1.thinkingHistory))
        = some []
    ∧ ((handleSubmit "next".toList preSubmitState).map (fun r =>
          (handleEvent "scientist".toList 99 r.1 r.2 oldStreamEvent).1.thinkingHistory))
        = some [stepOfContent (contentOf oldStreamEvent) 99]
    ∧ [stepOfContent (contentOf oldStreamEvent) 99] ≠ ([] : List ThinkingStep) :=
  ⟨rfl, rfl, by simp⟩

/-- C5 amended: submitting a new query resets all per-query UI state, but
nothing invalidates the superseded stream's events: there is no
generation counter, and a late `thinking_step` event delivered by any
stream — old or current — after the reset is appended to the current
query's ThinkingStep list exactly as a current-generation event would
be. -/
theorem no_generation_guard (ut : List Char) (now : Nat) (st : AppState)
    (ctx : HandlerCtx) (q : List Char) (hq : trimChars q ≠ []) (e : Json)
    (he : typeOf e = "thinking_step".toList) :
    ∃ st1 ctx1, handleSubmit q st = some (st1, ctx1)
      ∧ st1.thinkingHistory = []
      ∧ (handleEvent ut now st1 ctx e).1.thinkingHistory
          = [stepOfContent (contentOf e) now] := by
  unfold handleSubmit
  rw [if_neg hq]
  refine ⟨_, _, rfl, rfl, ?_⟩
  simp [handleEvent, he]

theorem no_generation_guard_witness :
    ∃ st1 ctx1, handleSubmit "next".toList preSubmitState = some (st1, ctx1)
      ∧ st1.thinkingHistory = []
      ∧ (handleEvent "scientist".toList 99 st1
            (HandlerCtx.mk [] none (Json.str "Old".toList)) oldStreamEvent).1.thinkingHistory
          = [stepOfContent (contentOf oldStreamEvent) 99] :=
  no_generation_guard "scientist".toList 99 preSubmitState
    (HandlerCtx.mk [] none (Json.str "Old".toList)) "next".toList (by decide)
    oldStreamEvent rfl
